import Mathlib

/-!
Verification of the bencode codec (`src/lib.rs`).

The byte stream (Rust `Peekable<I>` over `u8`) is modelled as a `List Nat`;
`peek` is inspecting the head, `next` is consuming it.  Every decoding
routine returns the decoded result together with the remaining stream.
Panicking control flow (`assert_eq!`, `expect`) is modelled by an explicit
`panic` outcome, and the mutual recursion of the decoder is bounded by an
explicit fuel parameter (`spent` marks fuel exhaustion, which never occurs
for the fuel chosen by the top-level entry point on the inputs of the
theorems below).
-/

/-- The `Bencode` enum of the source: `Integer(Vec<u8>)`, `Bytes(Vec<u8>)`,
`Array(Vec<Bencode>)`, `Object(BTreeMap<Vec<u8>, Bencode>)`.  The
`BTreeMap` is modelled as an association list kept in ascending
byte-lexicographic key order by its insertion function `btreeInsert`. -/
inductive Bencode where
  | Integer : List Nat → Bencode
  | Bytes : List Nat → Bencode
  | Array : List Bencode → Bencode
  | Object : List (List Nat × Bencode) → Bencode

/-- The `ParseError` enum of the source. -/
inductive ParseError where
  | Truncated
  | InvalidCharacter
  | InvalidLength
  | OutOfOrderKey
deriving DecidableEq

/-- Result of a decoding routine: the decoded value plus the remaining
stream, a `ParseError`, a panic (`assert_eq!`/`expect` failure), or fuel
exhaustion of the embedding. -/
inductive DecodeRes (α : Type) where
  | ok : α → List Nat → DecodeRes α
  | err : ParseError → DecodeRes α
  | panic : DecodeRes α
  | spent : DecodeRes α

/-- `Result::map` on the value component (used by the dispatcher to wrap
results in the chosen `Bencode` constructor). -/
def dmap {α β : Type} (f : α → β) : DecodeRes α → DecodeRes β
  | .ok a rest => .ok (f a) rest
  | .err e => .err e
  | .panic => .panic
  | .spent => .spent

/-- The `try!` macro of the source: on success continue with the value and
the advanced stream, otherwise propagate the error (or the panic / fuel
outcome of the embedding). -/
def dbind {α β : Type} (x : DecodeRes α) (f : α → List Nat → DecodeRes β) :
    DecodeRes β :=
  match x with
  | .ok a rest => f a rest
  | .err e => .err e
  | .panic => .panic
  | .spent => .spent

/-- `is_digit` of the source: `b'0' <= val && val <= b'9'`. -/
def is_digit (val : Nat) : Bool := 48 ≤ val && val ≤ 57

/-- Lexicographic order on byte vectors: the `Ord` instance of `Vec<u8>`
used by `key < prev_key` in `bdecode_dict`. -/
def lexLt : List Nat → List Nat → Bool
  | _, [] => false
  | [], _ :: _ => true
  | a :: as, b :: bs => if a < b then true else if a = b then lexLt as bs else false

/-- `BTreeMap::insert`: insert into the sorted association list, replacing
the value when the key is already present. -/
def btreeInsert (k : List Nat) (v : Bencode) :
    List (List Nat × Bencode) → List (List Nat × Bencode)
  | [] => [(k, v)]
  | (k2, v2) :: rest =>
    if lexLt k k2 then (k, v) :: (k2, v2) :: rest
    else if k = k2 then (k, v) :: rest
    else (k2, v2) :: btreeInsert k v rest

/-- `bdecode_extract_integer`: consume a maximal run of ASCII digits; end
of input mid-run is `Truncated`.  The `stream.next().unwrap()` of the
source cannot fail because the head was just peeked. -/
def bdecode_extract_integer : List Nat → DecodeRes (List Nat)
  | [] => .err .Truncated
  | c :: rest =>
    if is_digit c then
      dbind (bdecode_extract_integer rest) (fun buf rest2 => .ok (c :: buf) rest2)
    else .ok [] (c :: rest)

/-- `bdecode_integer`: consume `i`, a digit run, then expect a terminator;
per the source (line 53) a present terminator other than `e` yields
`Truncated`, and end of input also yields `Truncated`. -/
def bdecode_integer (stream : List Nat) : DecodeRes (List Nat) :=
  match stream with
  | [] => .err .Truncated
  | c :: rest =>
    if c = 105 then
      dbind (bdecode_extract_integer rest) (fun output rest2 =>
        match rest2 with
        | [] => .err .Truncated
        | e :: rest3 => if e = 101 then .ok output rest3 else .err .Truncated)
    else .err .InvalidCharacter

/-- `usize::from_str` applied to the digit run of a byte-string length:
an optional leading `+`, then a nonempty all-digit run whose value must
fit in a 64-bit `usize`; anything else fails (giving `InvalidLength` at
the caller). -/
def parse_usize (buf : List Nat) : Option Nat :=
  let digits :=
    match buf with
    | [] => buf
    | b :: rest => if b = 43 then rest else buf
  if digits = [] then none
  else if digits.all is_digit then
    if digits.foldl (fun acc d => acc * 10 + (d - 48)) 0 < 2 ^ 64 then
      some (digits.foldl (fun acc d => acc * 10 + (d - 48)) 0)
    else none
  else none

/-- Decimal value of an ASCII digit run (the fold performed by
`usize::from_str`). -/
def digitsVal (buf : List Nat) : Nat := buf.foldl (fun acc d => acc * 10 + (d - 48)) 0

/-- `bdecode_bytea`: extract the length digits, run them through
`from_utf8` (which can only fail — an `expect` panic — on non-ASCII bytes;
ASCII is always valid UTF-8) and `parse::<usize>`, require `:`, then take
up to `length` bytes from the stream (`stream.take(length).collect()`),
silently stopping early if the stream runs out. -/
def bdecode_bytea (stream : List Nat) : DecodeRes (List Nat) :=
  dbind (bdecode_extract_integer stream) (fun intbuf rest =>
    if intbuf.all (fun b => decide (b < 128)) then
      match parse_usize intbuf with
      | some length =>
        match rest with
        | [] => .err .Truncated
        | c :: rest2 =>
          if c = 58 then .ok (rest2.take length) (rest2.drop length)
          else .err .InvalidCharacter
      | none => .err .InvalidLength
    else .panic)

mutual

/-- `iter_bdecode`, the top-level dispatcher: peek one byte and select the
production; the catch-all arm (which also covers end of input) is
`InvalidCharacter`. -/
def iter_bdecode : Nat → List Nat → DecodeRes Bencode
  | 0, _ => .spent
  | fuel + 1, stream =>
    match stream with
    | [] => .err .InvalidCharacter
    | c :: _ =>
      if c = 105 then dmap Bencode.Integer (bdecode_integer stream)
      else if c = 108 then dmap Bencode.Array (bdecode_list fuel stream)
      else if c = 100 then dmap Bencode.Object (bdecode_dict fuel stream)
      else if is_digit c then dmap Bencode.Bytes (bdecode_bytea stream)
      else .err .InvalidCharacter

/-- `bdecode_list` up to its loop: `assert_eq!(Some(b'l'), stream.next())`
panics unless the next byte is `l`. -/
def bdecode_list : Nat → List Nat → DecodeRes (List Bencode)
  | 0, _ => .spent
  | fuel + 1, stream =>
    match stream with
    | c :: rest => if c = 108 then bdecode_list_loop fuel rest [] else .panic
    | [] => .panic

/-- The loop of `bdecode_list`: peek; `e` is consumed and closes the list,
end of input is `Truncated`, anything else decodes one value (via the
dispatcher, standing for the recursive `bdecode` call) and appends it. -/
def bdecode_list_loop : Nat → List Nat → List Bencode → DecodeRes (List Bencode)
  | 0, _, _ => .spent
  | fuel + 1, stream, output =>
    match stream with
    | [] => .err .Truncated
    | c :: rest =>
      if c = 101 then .ok output rest
      else
        dbind (iter_bdecode fuel (c :: rest)) (fun v rest2 =>
          bdecode_list_loop fuel rest2 (output ++ [v]))

/-- `bdecode_dict` up to its loop: `assert_eq!(Some(b'd'), stream.next())`
panics unless the next byte is `d`; the previous-key cursor starts empty. -/
def bdecode_dict : Nat → List Nat → DecodeRes (List (List Nat × Bencode))
  | 0, _ => .spent
  | fuel + 1, stream =>
    match stream with
    | c :: rest => if c = 100 then bdecode_dict_loop fuel rest [] [] else .panic
    | [] => .panic

/-- The loop of `bdecode_dict`: on peeking `e` the source (line 111)
returns the accumulated map WITHOUT consuming the `e`; otherwise decode a
byte-string key, reject keys below the previous key (`OutOfOrderKey`),
decode the value and insert it (overwriting a repeated key). -/
def bdecode_dict_loop : Nat → List Nat → List Nat → List (List Nat × Bencode) →
    DecodeRes (List (List Nat × Bencode))
  | 0, _, _, _ => .spent
  | fuel + 1, stream, prev_key, output =>
    match stream with
    | [] => .err .Truncated
    | c :: rest =>
      if c = 101 then .ok output (c :: rest)
      else
        dbind (bdecode_bytea (c :: rest)) (fun key rest2 =>
          if lexLt key prev_key then .err .OutOfOrderKey
          else
            dbind (iter_bdecode fuel rest2) (fun value rest3 =>
              bdecode_dict_loop fuel rest3 key (btreeInsert key value output)))

end

/-- Modelled from the spec: `bdecode`, the public entry point that the
repository's test and the recursive calls in `bdecode_list`/`bdecode_dict`
refer to, is not under `src/`; per the spec ("Dict/List call the top-level
dispatcher") it is the dispatcher `iter_bdecode`.  The fuel `2|s| + 2`
bounds the depth of the embedded mutual recursion. -/
def bdecode (stream : List Nat) : DecodeRes Bencode :=
  iter_bdecode (2 * stream.length + 2) stream

/-- Auxiliary, fuel-bounded form of the decimal printing done by
`write!(writer, "{}:", bytea.len())`: most-significant digit first. -/
def decimalDigitsAux : Nat → Nat → List Nat
  | 0, _ => []
  | fuel + 1, n =>
    if n < 10 then [48 + n]
    else decimalDigitsAux fuel (n / 10) ++ [48 + n % 10]

/-- ASCII decimal representation of a natural number (the `Display`
formatting of `usize` used by the encoder); `n` itself always bounds the
digit count, so the fuel `n + 1` is sufficient. -/
def decimalDigits (n : Nat) : List Nat := decimalDigitsAux (n + 1) n

/-- `bencode_bytea`: decimal length, `:`, then the raw bytes. -/
def bencode_bytea (bytea : List Nat) : List Nat :=
  decimalDigits bytea.length ++ 58 :: bytea

mutual

/-- `bencode`, the encoder: `i raw e` for integers, length-prefixed bytes,
`l … e` for arrays, `d … e` for objects with entries emitted in the
map's stored (ascending-key) order. -/
def bencode : Bencode → List Nat
  | .Integer buf => 105 :: (buf ++ [101])
  | .Bytes buf => bencode_bytea buf
  | .Array items => 108 :: (bencode_items items ++ [101])
  | .Object entries => 100 :: (bencode_entries entries ++ [101])

/-- Concatenated encodings of the elements of an array (the `for` loop of
the `Array` arm). -/
def bencode_items : List Bencode → List Nat
  | [] => []
  | v :: rest => bencode v ++ bencode_items rest

/-- Concatenated encodings of the entries of an object (the `for` loop of
the `Object` arm): each key as a byte string, then its value. -/
def bencode_entries : List (List Nat × Bencode) → List Nat
  | [] => []
  | (key, value) :: rest => bencode_bytea key ++ (bencode value ++ bencode_entries rest)

end

mutual

/-- Values whose encodings round-trip through the decoder: `Integer`
payloads are genuine digit runs, `Bytes` lengths fit in `usize`, and no
`Object` occurs (the dict decoder does not consume its closing `e`, so
object encodings are not re-parsed at their true extent). -/
def goodValue : Bencode → Bool
  | .Integer buf => buf.all is_digit
  | .Bytes buf => decide (buf.length < 2 ^ 64)
  | .Array items => goodItems items
  | .Object _ => false

/-- `goodValue` on every element of a list. -/
def goodItems : List Bencode → Bool
  | [] => true
  | v :: rest => goodValue v && goodItems rest

end

/-- A `BTreeMap` built by a sequence of inserts starting from the empty
map (`BTreeMap::new` followed by `insert` for each pair, in order). -/
def mapOfList (kvs : List (List Nat × Bencode)) : List (List Nat × Bencode) :=
  kvs.foldl (fun m kv => btreeInsert kv.1 kv.2 m) []

theorem is_digit_iff {c : Nat} : is_digit c = true ↔ 48 ≤ c ∧ c ≤ 57 := by
  simp [is_digit]

theorem bdecode_extract_integer_spec (ds : List Nat) (c : Nat) (rest : List Nat)
    (hds : ds.all is_digit = true) (hc : is_digit c = false) :
    bdecode_extract_integer (ds ++ c :: rest) = .ok ds (c :: rest) := by
  induction ds with
  | nil => simp [bdecode_extract_integer, hc]
  | cons d ds ih =>
    simp only [List.all_cons, Bool.and_eq_true] at hds
    simp [bdecode_extract_integer, hds.1, ih hds.2, dbind]

theorem bdecode_extract_integer_digits :
    ∀ (s buf rest : List Nat), bdecode_extract_integer s = .ok buf rest →
      buf.all is_digit = true := by
  intro s
  induction s with
  | nil => intro buf rest h; simp [bdecode_extract_integer] at h
  | cons c s ih =>
    intro buf rest h
    by_cases hc : is_digit c = true
    · simp only [bdecode_extract_integer, hc, if_true] at h
      cases he : bdecode_extract_integer s with
      | ok buf2 rest2 =>
        rw [he] at h
        cases h
        simp only [List.all_cons, Bool.and_eq_true]
        exact ⟨hc, ih _ _ he⟩
      | err e => rw [he] at h; cases h
      | panic => rw [he] at h; cases h
      | spent => rw [he] at h; cases h
    · rw [Bool.not_eq_true] at hc
      simp only [bdecode_extract_integer, hc, if_false] at h
      cases h
      rfl

theorem bdecode_extract_integer_ok_or_err (s : List Nat) :
    (∃ buf rest, bdecode_extract_integer s = .ok buf rest) ∨
    (∃ e, bdecode_extract_integer s = .err e) := by
  induction s with
  | nil => right; exact ⟨.Truncated, rfl⟩
  | cons c s ih =>
    by_cases hc : is_digit c = true
    · rcases ih with ⟨buf, rest, h⟩ | ⟨e, h⟩
      · left; exact ⟨c :: buf, rest, by simp [bdecode_extract_integer, hc, h, dbind]⟩
      · right; exact ⟨e, by simp [bdecode_extract_integer, hc, h, dbind]⟩
    · rw [Bool.not_eq_true] at hc
      left
      exact ⟨[], c :: s, by simp [bdecode_extract_integer, hc]⟩

theorem decimalDigitsAux_all (fuel n : Nat) (h : n < fuel) :
    (decimalDigitsAux fuel n).all is_digit = true := by
  induction fuel generalizing n with
  | zero => omega
  | succ fuel ih =>
    by_cases h10 : n < 10
    · simp [decimalDigitsAux, h10, is_digit_iff]; omega
    · have hrec : n / 10 < fuel := by
        have := Nat.div_lt_self (by omega : 0 < n) (by omega : 1 < 10)
        omega
      simp only [decimalDigitsAux, h10, if_false, List.all_append]
      rw [ih _ hrec]
      simp [is_digit_iff]
      omega

theorem decimalDigitsAux_cons (fuel n : Nat) (h : n < fuel) :
    ∃ d ds, decimalDigitsAux fuel n = d :: ds ∧ is_digit d = true := by
  induction fuel generalizing n with
  | zero => omega
  | succ fuel ih =>
    by_cases h10 : n < 10
    · refine ⟨48 + n, [], by simp [decimalDigitsAux, h10], ?_⟩
      rw [is_digit_iff]; omega
    · have hrec : n / 10 < fuel := by
        have := Nat.div_lt_self (by omega : 0 < n) (by omega : 1 < 10)
        omega
      obtain ⟨d, ds, hcons, hd⟩ := ih _ hrec
      exact ⟨d, ds ++ [48 + n % 10], by simp [decimalDigitsAux, h10, hcons], hd⟩

theorem digitsVal_append_singleton (l : List Nat) (d : Nat) :
    digitsVal (l ++ [d]) = 10 * digitsVal l + (d - 48) := by
  simp [digitsVal, List.foldl_append]
  omega

theorem decimalDigitsAux_val (fuel n : Nat) (h : n < fuel) :
    digitsVal (decimalDigitsAux fuel n) = n := by
  induction fuel generalizing n with
  | zero => omega
  | succ fuel ih =>
    by_cases h10 : n < 10
    · simp [decimalDigitsAux, h10, digitsVal]
    · have hrec : n / 10 < fuel := by
        have := Nat.div_lt_self (by omega : 0 < n) (by omega : 1 < 10)
        omega
      simp only [decimalDigitsAux, h10, if_false]
      rw [digitsVal_append_singleton, ih _ hrec]
      omega

theorem decimalDigits_all (n : Nat) : (decimalDigits n).all is_digit = true :=
  decimalDigitsAux_all _ _ (Nat.lt_succ_self n)

theorem decimalDigits_cons (n : Nat) :
    ∃ d ds, decimalDigits n = d :: ds ∧ is_digit d = true :=
  decimalDigitsAux_cons _ _ (Nat.lt_succ_self n)

theorem decimalDigits_val (n : Nat) : digitsVal (decimalDigits n) = n :=
  decimalDigitsAux_val _ _ (Nat.lt_succ_self n)

theorem parse_usize_of_digits (buf : List Nat) (hne : buf ≠ [])
    (hall : buf.all is_digit = true) (hlt : digitsVal buf < 2 ^ 64) :
    parse_usize buf = some (digitsVal buf) := by
  obtain ⟨d, ds, rfl⟩ : ∃ d ds, buf = d :: ds := by
    cases buf with
    | nil => exact absurd rfl hne
    | cons d ds => exact ⟨d, ds, rfl⟩
  have hd : is_digit d = true := by
    simp only [List.all_cons, Bool.and_eq_true] at hall
    exact hall.1
  rw [is_digit_iff] at hd
  have h43 : d ≠ 43 := by omega
  simp only [digitsVal, List.foldl_cons, Nat.zero_mul, Nat.zero_add] at hlt
  simp [parse_usize, h43, hall, hlt, digitsVal]
  omega

theorem parse_usize_decimalDigits (n : Nat) (h : n < 2 ^ 64) :
    parse_usize (decimalDigits n) = some n := by
  obtain ⟨d, ds, hcons, _⟩ := decimalDigits_cons n
  have := parse_usize_of_digits (decimalDigits n)
    (by rw [hcons]; simp) (decimalDigits_all n)
    (by rw [decimalDigits_val]; exact h)
  rw [decimalDigits_val] at this
  exact this

theorem digits_ascii (buf : List Nat) (h : buf.all is_digit = true) :
    (buf.all fun b => decide (b < 128)) = true := by
  rw [List.all_eq_true] at h ⊢
  intro x hx
  have := h x hx
  rw [is_digit_iff] at this
  simp
  omega

theorem bdecode_integer_rt (buf rest : List Nat) (h : buf.all is_digit = true) :
    bdecode_integer (105 :: (buf ++ 101 :: rest)) = .ok buf rest := by
  have h101 : is_digit 101 = false := by decide
  simp [bdecode_integer, bdecode_extract_integer_spec buf 101 rest h h101, dbind]

theorem bdecode_bytea_rt (b rest : List Nat) (h : b.length < 2 ^ 64) :
    bdecode_bytea (bencode_bytea b ++ rest) = .ok b rest := by
  have h58 : is_digit 58 = false := by decide
  have hsplit : bencode_bytea b ++ rest
      = decimalDigits b.length ++ 58 :: (b ++ rest) := by
    simp [bencode_bytea]
  rw [hsplit]
  simp only [bdecode_bytea,
    bdecode_extract_integer_spec _ 58 _ (decimalDigits_all _) h58, dbind,
    digits_ascii _ (decimalDigits_all b.length), if_true,
    parse_usize_decimalDigits _ h]
  rw [List.take_left, List.drop_left]

theorem bencode_head (v : Bencode) :
    ∃ c tl, bencode v = c :: tl ∧ c ≠ 101 := by
  cases v with
  | Integer buf => exact ⟨105, buf ++ [101], rfl, by decide⟩
  | Bytes buf =>
    obtain ⟨d, ds, hcons, hd⟩ := decimalDigits_cons buf.length
    rw [is_digit_iff] at hd
    refine ⟨d, ds ++ 58 :: buf, ?_, by omega⟩
    simp [bencode, bencode_bytea, hcons]
  | Array items => exact ⟨108, bencode_items items ++ [101], rfl, by decide⟩
  | Object entries => exact ⟨100, bencode_entries entries ++ [101], rfl, by decide⟩

/-- Mutual-induction core of the round-trip theorem: with sufficient fuel,
the dispatcher consumes exactly the encoding of an `Object`-free value and
returns that value, and the list loop consumes the encodings of the
elements plus the closing `e`. -/
theorem decode_encode_core :
    ∀ fuel,
      (∀ v rest, goodValue v = true → 2 * (bencode v).length ≤ fuel →
        iter_bdecode fuel (bencode v ++ rest) = .ok v rest)
    ∧ (∀ items output rest, goodItems items = true →
        2 * (bencode_items items).length + 2 ≤ fuel →
        bdecode_list_loop fuel (bencode_items items ++ 101 :: rest) output
          = .ok (output ++ items) rest) := by
  intro fuel
  induction fuel using Nat.strong_induction_on with
  | _ fuel ih =>
    constructor
    · intro v rest hgood hfuel
      have hlen : 1 ≤ (bencode v).length := by
        obtain ⟨c, tl, hcons, _⟩ := bencode_head v
        rw [hcons]; simp
      obtain ⟨f, rfl⟩ : ∃ f, fuel = f + 1 := ⟨fuel - 1, by omega⟩
      cases v with
      | Integer buf =>
        have hstream : bencode (.Integer buf) ++ rest = 105 :: (buf ++ 101 :: rest) := by
          simp [bencode]
        rw [hstream]
        simp only [iter_bdecode, if_pos rfl]
        rw [bdecode_integer_rt buf rest hgood]
        rfl
      | Bytes buf =>
        have hgood2 : buf.length < 2 ^ 64 := by
          simpa [goodValue] using hgood
        obtain ⟨d, ds, hcons, hd⟩ := decimalDigits_cons buf.length
        rw [is_digit_iff] at hd
        have hstream : bencode (.Bytes buf) ++ rest
            = d :: (ds ++ 58 :: buf ++ rest) := by
          simp [bencode, bencode_bytea, hcons]
        rw [hstream]
        have h105 : d ≠ 105 := by omega
        have h108 : d ≠ 108 := by omega
        have h100 : d ≠ 100 := by omega
        have hdig : is_digit d = true := by rw [is_digit_iff]; omega
        simp only [iter_bdecode, h105, h108, h100, hdig, if_false, if_true]
        have hback : d :: (ds ++ 58 :: buf ++ rest)
            = bencode_bytea buf ++ rest := by
          simp [bencode_bytea, hcons]
        rw [hback, bdecode_bytea_rt buf rest hgood2]
        rfl
      | Array items =>
        have hgood2 : goodItems items = true := by
          simpa [goodValue] using hgood
        have hstream : bencode (.Array items) ++ rest
            = 108 :: (bencode_items items ++ 101 :: rest) := by
          simp [bencode]
        rw [hstream]
        have hfuel2 : 2 * (bencode_items items).length + 4 ≤ f + 1 := by
          simp only [bencode, List.length_cons, List.length_append] at hfuel
          omega
        obtain ⟨g, rfl⟩ : ∃ g, f = g + 1 := ⟨f - 1, by omega⟩
        simp only [iter_bdecode, bdecode_list, if_true, if_false]
        rw [(ih g (by omega)).2 items [] rest hgood2 (by omega)]
        rfl
      | Object entries => simp [goodValue] at hgood
    · intro items output rest hgood hfuel
      obtain ⟨g, rfl⟩ : ∃ g, fuel = g + 1 := ⟨fuel - 1, by omega⟩
      cases items with
      | nil =>
        simp only [bencode_items, List.nil_append]
        simp [bdecode_list_loop]
      | cons v vs =>
        simp only [goodItems, Bool.and_eq_true] at hgood
        obtain ⟨c, tl, hcons, hc⟩ := bencode_head v
        have hlenv : 1 ≤ (bencode v).length := by rw [hcons]; simp
        have hstream : bencode_items (v :: vs) ++ 101 :: rest
            = c :: (tl ++ (bencode_items vs ++ 101 :: rest)) := by
          simp [bencode_items, hcons]
        rw [hstream]
        simp only [bdecode_list_loop, hc, if_false]
        have hback : c :: (tl ++ (bencode_items vs ++ 101 :: rest))
            = bencode v ++ (bencode_items vs ++ 101 :: rest) := by
          simp [hcons]
        rw [hback]
        have hfuel2 : 2 * (bencode_items (v :: vs)).length + 2 =
            2 * (bencode v).length + 2 * (bencode_items vs).length + 2 := by
          simp [bencode_items, List.length_append]
          omega
        rw [hfuel2] at hfuel
        rw [(ih g (by omega)).1 v _ hgood.1 (by omega)]
        simp only [dbind]
        rw [(ih g (by omega)).2 vs (output ++ [v]) rest hgood.2 (by omega)]
        simp

theorem dmap_ne_panic {α β : Type} (f : α → β) (x : DecodeRes α)
    (hx : x ≠ .panic) : dmap f x ≠ .panic := by
  cases x with
  | ok a r => simp [dmap]
  | err e => simp [dmap]
  | panic => exact absurd rfl hx
  | spent => simp [dmap]

theorem dbind_ne_panic {α β : Type} (x : DecodeRes α)
    (f : α → List Nat → DecodeRes β) (hx : x ≠ .panic)
    (hf : ∀ a r, f a r ≠ .panic) : dbind x f ≠ .panic := by
  cases x with
  | ok a r => exact hf a r
  | err e => simp [dbind]
  | panic => exact absurd rfl hx
  | spent => simp [dbind]

theorem bdecode_extract_integer_ne_panic (s : List Nat) :
    bdecode_extract_integer s ≠ .panic := by
  rcases bdecode_extract_integer_ok_or_err s with ⟨buf, rest, h⟩ | ⟨e, h⟩ <;>
    rw [h] <;> simp

theorem bdecode_integer_ne_panic (s : List Nat) :
    bdecode_integer s ≠ .panic := by
  cases s with
  | nil => simp [bdecode_integer]
  | cons c rest =>
    by_cases h : c = 105
    · simp only [bdecode_integer, h, if_true]
      refine dbind_ne_panic _ _ (bdecode_extract_integer_ne_panic rest) ?_
      intro a r
      cases r with
      | nil => simp
      | cons e r3 =>
        by_cases he : e = 101 <;> simp [he]
    · simp [bdecode_integer, h]

theorem bdecode_bytea_ne_panic (s : List Nat) :
    bdecode_bytea s ≠ .panic := by
  rcases bdecode_extract_integer_ok_or_err s with ⟨buf, rest, h⟩ | ⟨e, h⟩
  · have hdig := bdecode_extract_integer_digits s buf rest h
    simp only [bdecode_bytea, h, dbind, digits_ascii buf hdig, if_true]
    cases parse_usize buf with
    | none => simp
    | some length =>
      cases rest with
      | nil => simp
      | cons c rest2 => by_cases hc : c = 58 <;> simp [hc]
  · simp [bdecode_bytea, h, dbind]

/-- Mutual-induction core of panic-freedom: the dispatcher (which guards
the first byte of every production before entering it) and the two loops
never reach a panic, for any fuel and any input stream. -/
theorem no_panic_core : ∀ fuel,
    (∀ s, iter_bdecode fuel s ≠ .panic)
  ∧ (∀ s output, bdecode_list_loop fuel s output ≠ .panic)
  ∧ (∀ s prev output, bdecode_dict_loop fuel s prev output ≠ .panic) := by
  intro fuel
  induction fuel using Nat.strong_induction_on with
  | _ fuel ih =>
    refine ⟨?_, ?_, ?_⟩
    · intro s
      match fuel, s with
      | 0, _ => simp [iter_bdecode]
      | f + 1, [] => simp [iter_bdecode]
      | f + 1, c :: rest =>
        simp only [iter_bdecode]
        by_cases h105 : c = 105
        · simp only [h105, if_true]
          exact dmap_ne_panic _ _ (bdecode_integer_ne_panic _)
        · simp only [h105, if_false]
          by_cases h108 : c = 108
          · simp only [h108, if_true]
            refine dmap_ne_panic _ _ ?_
            match f with
            | 0 => simp [bdecode_list]
            | g + 1 =>
              simp only [bdecode_list, h108, if_true]
              exact (ih g (by omega)).2.1 rest []
          · simp only [h108, if_false]
            by_cases h100 : c = 100
            · simp only [h100, if_true]
              refine dmap_ne_panic _ _ ?_
              match f with
              | 0 => simp [bdecode_dict]
              | g + 1 =>
                simp only [bdecode_dict, h100, if_true]
                exact (ih g (by omega)).2.2 rest [] []
            · simp only [h100, if_false]
              by_cases hd : is_digit c = true
              · simp only [hd, if_true]
                exact dmap_ne_panic _ _ (bdecode_bytea_ne_panic _)
              · rw [Bool.not_eq_true] at hd
                simp [hd]
    · intro s output
      match fuel, s with
      | 0, _ => simp [bdecode_list_loop]
      | f + 1, [] => simp [bdecode_list_loop]
      | f + 1, c :: rest =>
        by_cases hc : c = 101
        · simp [bdecode_list_loop, hc]
        · simp only [bdecode_list_loop, hc, if_false]
          refine dbind_ne_panic _ _ ((ih f (by omega)).1 _) ?_
          intro a r
          exact (ih f (by omega)).2.1 r (output ++ [a])
    · intro s prev output
      match fuel, s with
      | 0, _ => simp [bdecode_dict_loop]
      | f + 1, [] => simp [bdecode_dict_loop]
      | f + 1, c :: rest =>
        by_cases hc : c = 101
        · simp [bdecode_dict_loop, hc]
        · simp only [bdecode_dict_loop, hc, if_false]
          refine dbind_ne_panic _ _ (bdecode_bytea_ne_panic _) ?_
          intro key r2
          by_cases hk : lexLt key prev = true
          · simp [hk]
          · rw [Bool.not_eq_true] at hk
            simp only [hk, if_false]
            refine dbind_ne_panic _ _ ((ih f (by omega)).1 _) ?_
            intro value r3
            exact (ih f (by omega)).2.2 r3 key (btreeInsert key value output)

theorem lexLt_total : ∀ a b : List Nat, lexLt a b = true ∨ a = b ∨ lexLt b a = true := by
  intro a
  induction a with
  | nil =>
    intro b
    cases b with
    | nil => right; left; rfl
    | cons y ys => left; simp [lexLt]
  | cons x xs ih =>
    intro b
    cases b with
    | nil => right; right; simp [lexLt]
    | cons y ys =>
      rcases Nat.lt_trichotomy x y with h | h | h
      · left; simp [lexLt, h]
      · subst h
        rcases ih ys with h2 | h2 | h2
        · left; simp [lexLt, h2]
        · subst h2; right; left; rfl
        · right; right; simp [lexLt, h2]
      · right; right; simp [lexLt, h]

theorem btreeInsert_head (k : List Nat) (v : Bencode)
    (m : List (List Nat × Bencode)) :
    ∃ p rest2, btreeInsert k v m = p :: rest2
      ∧ (p.1 = k ∨ ∃ ms, m = p :: ms) := by
  cases m with
  | nil => exact ⟨(k, v), [], rfl, Or.inl rfl⟩
  | cons q ms =>
    obtain ⟨k2, v2⟩ := q
    by_cases h1 : lexLt k k2 = true
    · exact ⟨(k, v), (k2, v2) :: ms, by simp [btreeInsert, if_pos h1], Or.inl rfl⟩
    · by_cases h2 : k = k2
      · exact ⟨(k, v), ms, by simp [btreeInsert, if_neg h1, if_pos h2], Or.inl rfl⟩
      · exact ⟨(k2, v2), btreeInsert k v ms,
          by simp [btreeInsert, if_neg h1, if_neg h2], Or.inr ⟨ms, rfl⟩⟩

theorem btreeInsert_chain (k : List Nat) (v : Bencode) :
    ∀ m, List.Chain' (fun a b => lexLt a.1 b.1 = true) m →
      List.Chain' (fun a b => lexLt a.1 b.1 = true) (btreeInsert k v m) := by
  intro m
  induction m with
  | nil => intro _; simp [btreeInsert]
  | cons p rest ih =>
    obtain ⟨k2, v2⟩ := p
    intro h
    rw [List.chain'_cons'] at h
    obtain ⟨hhead, htail⟩ := h
    by_cases h1 : lexLt k k2 = true
    · rw [show btreeInsert k v ((k2, v2) :: rest) = (k, v) :: (k2, v2) :: rest by
        simp [btreeInsert, if_pos h1]]
      exact List.chain'_cons.mpr ⟨h1, List.chain'_cons'.mpr ⟨hhead, htail⟩⟩
    · by_cases h2 : k = k2
      · rw [show btreeInsert k v ((k2, v2) :: rest) = (k, v) :: rest by
          simp [btreeInsert, if_neg h1, if_pos h2]]
        refine List.chain'_cons'.mpr ⟨?_, htail⟩
        intro y hy
        rw [h2]
        exact hhead y hy
      · rw [show btreeInsert k v ((k2, v2) :: rest)
            = (k2, v2) :: btreeInsert k v rest by
          simp [btreeInsert, if_neg h1, if_neg h2]]
        have hk2k : lexLt k2 k = true := by
          rcases lexLt_total k k2 with h3 | h3 | h3
          · exact absurd h3 h1
          · exact absurd h3 h2
          · exact h3
        obtain ⟨p, rest2, heq, hp⟩ := btreeInsert_head k v rest
        rw [heq]
        refine List.chain'_cons.mpr ⟨?_, by rw [← heq]; exact ih htail⟩
        rcases hp with hpk | ⟨ms, hrest⟩
        · rw [hpk]; exact hk2k
        · exact hhead p (by simp [hrest])

theorem mapOfList_chain (kvs : List (List Nat × Bencode)) :
    List.Chain' (fun a b => lexLt a.1 b.1 = true) (mapOfList kvs) := by
  have aux : ∀ (l : List (List Nat × Bencode)) m,
      List.Chain' (fun a b => lexLt a.1 b.1 = true) m →
      List.Chain' (fun a b => lexLt a.1 b.1 = true)
        (List.foldl (fun m kv => btreeInsert kv.1 kv.2 m) m l) := by
    intro l
    induction l with
    | nil => intro m h; exact h
    | cons kv l ih =>
      intro m h
      exact ih _ (btreeInsert_chain _ _ _ h)
  exact aux kvs [] (by simp)

theorem bencode_entries_join (m : List (List Nat × Bencode)) :
    bencode_entries m
      = (m.map fun kv => bencode_bytea kv.1 ++ bencode kv.2).flatten := by
  induction m with
  | nil => rfl
  | cons kv rest ih =>
    obtain ⟨k, v⟩ := kv
    simp [bencode_entries, ih]

/-- C1: the claimed byte-for-byte round-trip on well-formed, canonically
ordered input fails.  The 7-byte document that `bencode` itself produces
for `Array [Object {}, Integer "4"]` (hence well-formed and canonical) is
decoded by the dispatcher into `Array [Object {}]` — because
`bdecode_dict` does not consume its closing `e`, the enclosing list loop
mistakes that `e` for its own terminator — and re-encoding that result
yields a different byte sequence. -/
theorem c1_roundtrip_violation :
    bencode (.Array [.Object [], .Integer [52]])
      = [108, 100, 101, 105, 52, 101, 101]
    ∧ bdecode [108, 100, 101, 105, 52, 101, 101]
        = .ok (.Array [.Object []]) [105, 52, 101, 101]
    ∧ bencode (.Array [.Object []]) ≠ [108, 100, 101, 105, 52, 101, 101] :=
  ⟨rfl, rfl, by decide⟩

/-- C2: the claim that a successful dict decode consumes the dict's
closing `e` fails: decoding `de` succeeds but leaves the `e` (byte 101)
unconsumed in the source, whereas decoding the list `le` does consume its
closing `e` and leaves the source empty. -/
theorem c2_dict_close_byte_left :
    bdecode [100, 101] = .ok (.Object []) [101]
    ∧ bdecode [108, 101] = .ok (.Array []) [] :=
  ⟨rfl, rfl⟩

/-- C3 counterexample: for `v = Array [Object {}, Integer "4"]`, decoding
the encoding of `v` does not yield a value structurally equal to `v` (it
yields `Array [Object {}]`), refuting the claim for arbitrary values. -/
theorem c3_counterexample :
    ¬ ∃ rest, bdecode (bencode (.Array [.Object [], .Integer [52]]))
        = .ok (.Array [.Object [], .Integer [52]]) rest := by
  intro ⟨rest, h⟩
  rw [show bdecode (bencode (.Array [.Object [], .Integer [52]]))
      = .ok (.Array [.Object []]) [105, 52, 101, 101] from rfl] at h
  simp at h

/-- C3 (amended): for every `Object`-free value whose `Integer` payloads
are ASCII digit runs (and whose `Bytes` payloads have `usize`-sized
lengths), decoding the encoding succeeds, consumes the whole encoding,
and returns a structurally equal value, with `Array` order preserved. -/
theorem c3_encode_decode (v : Bencode) (hv : goodValue v = true) :
    bdecode (bencode v) = .ok v [] := by
  have h := (decode_encode_core (2 * (bencode v).length + 2)).1 v [] hv (by omega)
  rw [List.append_nil] at h
  exact h

/-- C3 witness: the amended round-trip evaluated on the concrete value
`Array [Integer "42", Bytes "ab"]`. -/
theorem c3_witness :
    goodValue (.Array [.Integer [52, 50], .Bytes [97, 98]]) = true
    ∧ bdecode (bencode (.Array [.Integer [52, 50], .Bytes [97, 98]]))
        = .ok (.Array [.Integer [52, 50], .Bytes [97, 98]]) [] :=
  ⟨by decide, c3_encode_decode _ (by decide)⟩

/-- C4 counterexample: decoding `i42x` does not fail with
`InvalidCharacter` — the integer terminator match maps a present non-`e`
byte to `Truncated` (source line 53). -/
theorem c4_counterexample :
    bdecode [105, 52, 50, 120] ≠ .err .InvalidCharacter := by
  intro h
  rw [show bdecode [105, 52, 50, 120] = .err .Truncated from rfl] at h
  simp at h

/-- C4 (amended): when the digit run after `i` is terminated by a present
byte other than `e`, the decode fails with `Truncated` (not
`InvalidCharacter`). -/
theorem c4_nondigit_terminator (ds : List Nat) (x : Nat) (rest : List Nat)
    (h1 : ds.all is_digit = true) (h2 : is_digit x = false) (h3 : x ≠ 101) :
    bdecode (105 :: (ds ++ x :: rest)) = .err .Truncated := by
  simp only [bdecode]
  obtain ⟨f, hf⟩ : ∃ f, 2 * (105 :: (ds ++ x :: rest)).length + 2 = f + 1 :=
    ⟨2 * (105 :: (ds ++ x :: rest)).length + 1, by omega⟩
  rw [hf]
  simp only [iter_bdecode, if_true]
  simp only [bdecode_integer, if_true,
    bdecode_extract_integer_spec ds x rest h1 h2, dbind, h3, if_false]
  rfl

/-- C4 witness: the amended error kind evaluated on `i42x`. -/
theorem c4_witness : bdecode [105, 52, 50, 120] = .err .Truncated :=
  c4_nondigit_terminator [52, 50] 120 [] (by decide) (by decide) (by decide)

/-- C5 counterexample: decoding the empty input does not fail with
`Truncated` — the dispatcher's catch-all arm covers end of input too and
returns `InvalidCharacter`. -/
theorem c5_counterexample :
    bdecode [] = .err .InvalidCharacter ∧ bdecode [] ≠ .err .Truncated :=
  ⟨rfl, by
    intro h
    rw [show bdecode [] = .err .InvalidCharacter from rfl] at h
    simp at h⟩

/-- C5 (amended): at a value-start position, both an exhausted source and
a byte that is none of `i`, `l`, `d`, or an ASCII digit fail with
`InvalidCharacter`; the dispatcher does not distinguish end of input. -/
theorem c5_value_start_errors :
    bdecode [] = .err .InvalidCharacter
    ∧ ∀ b rest, b ≠ 105 → b ≠ 108 → b ≠ 100 → is_digit b = false →
        bdecode (b :: rest) = .err .InvalidCharacter := by
  refine ⟨rfl, ?_⟩
  intro b rest h105 h108 h100 hdig
  simp only [bdecode]
  obtain ⟨f, hf⟩ : ∃ f, 2 * (b :: rest).length + 2 = f + 1 :=
    ⟨2 * (b :: rest).length + 1, by omega⟩
  rw [hf]
  simp only [iter_bdecode, h105, h108, h100, hdig, if_false]
  simp

/-- C5 witness: the amended dispatch errors evaluated on the empty input
and on the single byte `:` (58). -/
theorem c5_witness :
    bdecode [] = .err .InvalidCharacter
    ∧ bdecode [58] = .err .InvalidCharacter :=
  ⟨c5_value_start_errors.1,
    c5_value_start_errors.2 58 [] (by decide) (by decide) (by decide) (by decide)⟩

/-- C6: decoding the dict `d1:b0:1:a0:e` (keys `b` then `a`) fails with
`OutOfOrderKey`, while the dict `d1:a1:x1:a1:ye` (key `a` repeated)
decodes successfully and the second occurrence's value (`y`) is the one
present in the resulting mapping. -/
theorem c6_key_order_and_duplicates :
    bdecode [100, 49, 58, 98, 48, 58, 49, 58, 97, 48, 58, 101]
      = .err .OutOfOrderKey
    ∧ bdecode [100, 49, 58, 97, 49, 58, 120, 49, 58, 97, 49, 58, 121, 101]
        = .ok (.Object [([97], .Bytes [121])]) [101] :=
  ⟨rfl, rfl⟩

/-- C7: for an `Object` whose map was built by any sequence of inserts
(in any order, the map's own insertion function keeping it sorted), the
encoder emits `d`, then each entry — the key as a length-prefixed byte
string followed by its value's encoding — in ascending byte-lexicographic
key order, then `e`. -/
theorem c7_object_canonical_order (kvs : List (List Nat × Bencode)) :
    List.Chain' (fun a b => lexLt a.1 b.1 = true) (mapOfList kvs)
    ∧ bencode (.Object (mapOfList kvs))
        = 100 :: ((mapOfList kvs).map
            (fun kv => bencode_bytea kv.1 ++ bencode kv.2)).flatten ++ [101] := by
  refine ⟨mapOfList_chain kvs, ?_⟩
  simp [bencode, bencode_entries_join]

/-- C8: when the declared length of a byte string exceeds the bytes
remaining after the `:`, the decode succeeds with exactly the available
bytes as payload and an empty remaining stream — no error is raised. -/
theorem c8_bytestring_short_read (ds payload : List Nat)
    (h1 : ds.all is_digit = true) (h2 : ds ≠ [])
    (h3 : digitsVal ds < 2 ^ 64) (h4 : payload.length < digitsVal ds) :
    bdecode (ds ++ 58 :: payload) = .ok (.Bytes payload) [] := by
  obtain ⟨d, ds2, rfl⟩ : ∃ d ds2, ds = d :: ds2 := by
    cases ds with
    | nil => exact absurd rfl h2
    | cons d ds2 => exact ⟨d, ds2, rfl⟩
  have hd : is_digit d = true := by
    simp only [List.all_cons, Bool.and_eq_true] at h1
    exact h1.1
  have hdr := hd
  rw [is_digit_iff] at hdr
  have h105 : d ≠ 105 := by omega
  have h108 : d ≠ 108 := by omega
  have h100 : d ≠ 100 := by omega
  simp only [bdecode]
  obtain ⟨f, hf⟩ : ∃ f, 2 * ((d :: ds2) ++ 58 :: payload).length + 2 = f + 1 :=
    ⟨2 * ((d :: ds2) ++ 58 :: payload).length + 1, by omega⟩
  rw [show (d :: ds2) ++ 58 :: payload = d :: (ds2 ++ 58 :: payload) from rfl]
  rw [show (d :: (ds2 ++ 58 :: payload)).length = ((d :: ds2) ++ 58 :: payload).length
      from by simp]
  rw [hf]
  simp only [iter_bdecode, h105, h108, h100, hd, if_false, if_true]
  have h58 : is_digit 58 = false := by decide
  rw [show d :: (ds2 ++ 58 :: payload) = (d :: ds2) ++ 58 :: payload from rfl]
  simp only [bdecode_bytea,
    bdecode_extract_integer_spec (d :: ds2) 58 payload h1 h58, dbind,
    digits_ascii _ h1, if_true, parse_usize_of_digits _ h2 h1 h3]
  rw [List.take_of_length_le (by omega), List.drop_eq_nil_of_le (by omega)]
  rfl

/-- C8 witness: the short-read behavior evaluated on the input `3:ab`. -/
theorem c8_witness : bdecode [51, 58, 97, 98] = .ok (.Bytes [97, 98]) [] :=
  c8_bytestring_short_read [51] [97, 98] (by decide) (by decide) (by decide)
    (by decide)

/-- C9 counterexample: the input `ie` (empty digit run) DOES decode
successfully as an Integer value (with empty payload), refuting the
claim that the grammar's `1*DIGIT` minimum is enforced. -/
theorem c9_counterexample : bdecode [105, 101] = .ok (.Integer []) [] := rfl

/-- C9 (amended): the decoder does not enforce the grammar's nonempty
digit run: `ie` decodes to `Integer` with empty payload, and that payload
re-encodes to the same two bytes. -/
theorem c9_empty_digit_run :
    bdecode [105, 101] = .ok (.Integer []) []
    ∧ bencode (.Integer []) = [105, 101] :=
  ⟨rfl, rfl⟩

/-- C10: decoding through the top-level dispatcher never reaches an
embedded panic (the `assert_eq!` of `bdecode_list`/`bdecode_dict`, the
`unwrap` of `bdecode_extract_integer`, and the UTF-8 `expect` of
`bdecode_bytea`), for any input and any fuel. -/
theorem c10_no_panic :
    ∀ s, bdecode s ≠ .panic ∧ ∀ fuel, iter_bdecode fuel s ≠ .panic :=
  fun s => ⟨(no_panic_core _).1 s, fun fuel => (no_panic_core fuel).1 s⟩

